import Mathlib

/-!
Verification of the crossword CSP solver (`src/generate.py`, class
`CrosswordCreator`) against its natural-language specification.

The solver's own code (node consistency, arc revision, AC-3 propagation,
the assignment evaluator, the search heuristics and backtracking search)
is embedded shallowly below, one Lean definition per Python method,
keeping the source names.  The structural model (`crossword.py`:
`Variable`, `Crossword.overlaps`, `Crossword.neighbors`, the vocabulary)
is not part of the sources; it is modelled from the specification's §3
and §6, as recorded in the doc comments of those definitions.

Conventions of the embedding:
* Python strings are `List Char`; `charAt` is a total model of `w[i]`
  (theorems whose meaning depends on in-range indexing carry explicit
  bounds hypotheses).
* Python dicts that the solver mutates are modelled as follows: the
  domain store (whose key set is fixed at construction to the
  crossword's variables) as a total function `Var → List Word`,
  meaningful on `cw.vars`; the assignment dict as an
  insertion-ordered association list.
* Raised exceptions (`ValueError` in variable selection, `IndexError`
  in value ordering, `KeyError` in `dict.pop`) are modelled as `none`
  results, and the AC-3 worklist loop carries fuel whose exhaustion is
  also `none`, so every theorem below is conditioned on a normally
  returned result.
* Python's `sorted` (a stable sort) is modelled with
  `List.insertionSort` (also stable); the iteration order of Python
  sets, which is unspecified, is fixed to list order.
-/

/-- Modelled from the spec: a `Variable` of the structural model
(`crossword.py`, which is not under `src/`): one slot, identified by
start row, start column, direction (one of two orthogonal axes) and
length, compared structurally and used as a mapping key (spec §3). -/
structure Var where
  row : Nat
  col : Nat
  down : Bool
  length : Nat
deriving DecidableEq, Repr

/-- A candidate word: a Python string, as its list of characters. -/
abbrev Word := List Char

/-- Total model of Python string indexing `w[i]`. -/
def charAt (w : Word) (i : Nat) : Char :=
  w.getD i default

/-- Modelled from the spec: the structural model consumed by the core
(spec §6): the set of slot-variables, the initial vocabulary, and for
each ordered pair of variables either "no overlap" or the offset pair
`(i_x, i_y)`.  Overlaps are symmetric and a slot does not overlap
itself (spec §3: overlaps belong to pairs of distinct slots computed
once from grid geometry). -/
structure Crossword where
  vars : List Var
  words : List Word
  overlaps : Var → Var → Option (Nat × Nat)
  vars_nodup : vars.Nodup
  overlaps_symm : ∀ x ∈ vars, ∀ y ∈ vars,
    overlaps y x = (overlaps x y).map (fun p => (p.2, p.1))
  overlaps_irrefl : ∀ x ∈ vars, overlaps x x = none

/-- Modelled from the spec: `neighbors(v)` is the set of variables
overlapping `v` (spec §6). -/
def Crossword.neighbors (cw : Crossword) (v : Var) : List Var :=
  cw.vars.filter (fun u => (cw.overlaps v u).isSome)

/-- The domain store: per-variable candidate word sets.  The Python
dict has exactly the crossword's variables as keys; it is modelled as a
total function, meaningful on `cw.vars`. -/
abbrev Domains := Var → List Word

/-- Pointwise update of the domain store at one key. -/
def updateD (d : Domains) (x : Var) (l : List Word) : Domains :=
  fun v => if v = x then l else d v

/-- `CrosswordCreator.__init__`: every variable's domain starts as a
copy of the full vocabulary. -/
def initialDomains (cw : Crossword) : Domains :=
  fun _ => cw.words

/-- A partial assignment: the Python dict from variables to words, as
an insertion-ordered association list. -/
abbrev Assignment := List (Var × Word)

/-- The keys of the assignment dict. -/
def assignedVars (a : Assignment) : List Var :=
  a.map Prod.fst

/-- Dict lookup `assignment[v]` (first binding of `v`). -/
def lookupA : Assignment → Var → Option Word
  | [], _ => none
  | (v, w) :: rest, x => if v = x then some w else lookupA rest x

/-- Dict write `assignment[var] = value`: replaces in place if the key
is present, otherwise appends at the end (Python dicts preserve
insertion order). -/
def setA (a : Assignment) (v : Var) (w : Word) : Assignment :=
  if v ∈ assignedVars a then a.map (fun p => if p.1 = v then (v, w) else p)
  else a ++ [(v, w)]

/-- Dict removal `assignment.pop(var)`: drops the binding of `v`;
`none` models the `KeyError` raised when `v` is not a key. -/
def popA (a : Assignment) (v : Var) : Option Assignment :=
  if v ∈ assignedVars a then some (a.filter (fun p => decide (p.1 ≠ v))) else none

namespace CrosswordCreator

/-- `CrosswordCreator.enforce_node_consistency`: remove from every
variable's domain each word whose length differs from the variable's
length. -/
def enforce_node_consistency (d : Domains) : Domains :=
  fun v => (d v).filter (fun w => w.length == v.length)

/-- The removal condition of `CrosswordCreator.revise`: word `w` of
`x`'s domain is removed when every word of `y`'s domain other than `w`
itself disagrees with `w` at the overlap offsets
(`all(x_word[x_index] != y_word[y_index] for y_word in y_words)` with
`y_words = self.domains[y] - {x_word}`). -/
def reviseRemoves (dy : List Word) (ix iy : Nat) (w : Word) : Bool :=
  (dy.filter (fun w2 => decide (w2 ≠ w))).all
    (fun w2 => decide (charAt w ix ≠ charAt w2 iy))

/-- `CrosswordCreator.revise`: make `x` arc consistent with `y`.
Returns the updated domain store and whether a revision was made.  With
no overlap it is a no-op returning `False`; otherwise it removes from
`x`'s domain the words satisfying `reviseRemoves` and returns whether
the removed set was non-empty. -/
def revise (cw : Crossword) (d : Domains) (x y : Var) : Domains × Bool :=
  match cw.overlaps x y with
  | none => (d, false)
  | some (ix, iy) =>
      let removed := (d x).filter (fun w => reviseRemoves (d y) ix iy w)
      (updateD d x ((d x).filter (fun w => !reviseRemoves (d y) ix iy w)),
       !removed.isEmpty)

/-- Modelled from the spec: the initial worklist of
`CrosswordCreator.ac3` is `list(self.crossword.overlaps.keys())`, whose
key structure lives in `crossword.py`; per spec §4.2 the queue is
initialized to all overlapping ordered pairs of variables. -/
def initialArcs (cw : Crossword) : List (Var × Var) :=
  (cw.vars.flatMap (fun x => cw.vars.map (fun y => (x, y)))).filter
    (fun p => (cw.overlaps p.1 p.2).isSome)

/-- Total size of the domain store over the crossword's variables. -/
def domainsSize (cw : Crossword) (d : Domains) : Nat :=
  (cw.vars.map (fun v => (d v).length)).sum

/-- Fuel bound for the AC-3 worklist loop.  Always at least the length
of the starting queue; generous enough for every run that terminates by
the standard AC-3 measure (each iteration either removes a word from
some domain or shortens the queue). -/
def ac3fuel (cw : Crossword) (d : Domains) (arcs : List (Var × Var)) : Nat :=
  arcs.length + (domainsSize cw d + 1) * (cw.vars.length + 1) * (arcs.length + 1)

/-- The `while arcs:` worklist loop of `CrosswordCreator.ac3`.  The
queue is held reversed so that its head is the element Python's
`arcs.pop()` removes from the end of the list; newly enqueued arcs
(`arcs.append(...)`) are pushed in front.  Popping an arc `(x, y)`
revises `x` against `y`; if the revision emptied `x`'s domain the loop
reports failure at once; if it changed `x`'s domain the arcs `(n, x)`
for every neighbor `n` of `x` other than `y` are re-enqueued.  `none`
is fuel exhaustion. -/
def ac3loop (cw : Crossword) : Nat → List (Var × Var) → Domains → Option (Domains × Bool)
  | _, [], d => some (d, true)
  | 0, _ :: _, _ => none
  | fuel + 1, (x, y) :: rest, d =>
      let p := revise cw d x y
      if p.2 then
        if (p.1 x).isEmpty then some (p.1, false)
        else
          ac3loop cw fuel
            ((((cw.neighbors x).filter (fun n => decide (n ≠ y))).map
                (fun n => (n, x))).reverse ++ rest)
            p.1
      else ac3loop cw fuel rest p.1

/-- `CrosswordCreator.ac3`: an explicitly empty arc list succeeds
trivially; `none` in place of an arc list starts from all arcs of the
problem; otherwise the given list is worked off. -/
def ac3 (cw : Crossword) (d : Domains) (arcs : Option (List (Var × Var))) :
    Option (Domains × Bool) :=
  match arcs with
  | some [] => some (d, true)
  | some l => ac3loop cw (ac3fuel cw d l) l.reverse d
  | none => ac3loop cw (ac3fuel cw d (initialArcs cw)) (initialArcs cw).reverse d

/-- `CrosswordCreator.assignment_complete`: every crossword variable is
a key of the assignment, and every bound value is truthy (non-empty). -/
def assignment_complete (cw : Crossword) (a : Assignment) : Bool :=
  (cw.vars.all (fun v => decide (v ∈ assignedVars a))) &&
  (a.all (fun p => !p.2.isEmpty))

/-- `CrosswordCreator.consistent`: all bound values pairwise distinct
(`len(set(values)) == len(values)`), every value of its variable's
length, and every bound pair of neighbors agreeing at the overlap
offsets. -/
def consistent (cw : Crossword) (a : Assignment) : Bool :=
  decide ((a.map Prod.snd).Nodup) &&
  (a.all (fun p => p.1.length == p.2.length)) &&
  (a.all (fun p =>
    (cw.neighbors p.1).all (fun n =>
      match lookupA a n with
      | none => true
      | some wn =>
          match cw.overlaps p.1 n with
          | none => true
          | some (i, j) => charAt p.2 i == charAt wn j)))

/-- The elimination count `CrosswordCreator.order_domain_values`
computes for a candidate value: the number of already-assigned
neighbors whose domain still contains that exact value (the
overlap-clash branch in the source is commented out).  The sort in
`order_domain_values` does not actually use these counts: its key
function indexes the candidate words themselves. -/
def elimination_count (cw : Crossword) (d : Domains) (var : Var) (a : Assignment)
    (value : Word) : Nat :=
  (cw.neighbors var).countP
    (fun n => decide ((lookupA a n).isSome ∧ value ∈ d n))

/-- `CrosswordCreator.order_domain_values`: the source sorts
`sorted(domain_values_with_elimination_count, key=lambda item: item[1])`,
which iterates the dict's keys — the candidate words — so the sort key
is `word[1]`, the second character of each word.  Computing that key
raises `IndexError` (modelled as `none`) as soon as some word of the
domain has length below two; otherwise the words are returned sorted by
their second character.  The dict's keys are the domain's words in
first-insertion order (`List.dedup`). -/
def order_domain_values (cw : Crossword) (d : Domains) (var : Var) (a : Assignment) :
    Option (List Word) :=
  let keys := (d var).dedup
  let _counts := keys.map (fun w => elimination_count cw d var a w)
  if keys.any (fun w => decide (w.length ≤ 1)) then none
  else some (keys.insertionSort (fun w1 w2 => charAt w1 1 ≤ charAt w2 1))

/-- `CrosswordCreator.select_unassigned_variable`: raises (`none`) when
no unassigned variable remains; with exactly one unassigned variable
returns it; otherwise sorts the unassigned variables ascending by
domain size, keeps those of minimal domain size, sorts them descending
by neighbor count and returns the first. -/
def select_unassigned_variable (cw : Crossword) (d : Domains) (a : Assignment) :
    Option Var :=
  if a.length ≥ cw.vars.length then none
  else
    let unassigned := cw.vars.filter (fun v => decide (v ∉ assignedVars a))
    if unassigned.isEmpty then none
    else if unassigned.length = 1 then unassigned.head?
    else
      let sortedBySize :=
        unassigned.insertionSort (fun v1 v2 => (d v1).length ≤ (d v2).length)
      match sortedBySize.head? with
      | none => none
      | some vmin =>
          let minVars :=
            sortedBySize.filter (fun v => (d v).length == (d vmin).length)
          (minVars.insertionSort
            (fun v1 v2 => (cw.neighbors v2).length ≤ (cw.neighbors v1).length)).head?

/-- Python's truthiness test `if result:` on the value returned by a
recursive `backtrack` call: `None` and the empty dict are falsy. -/
def resultTruthy : Option Assignment → Bool
  | none => false
  | some a => !a.isEmpty

/-- The `for value in self.order_domain_values(...)` loop of
`CrosswordCreator.backtrack`, in state-passing style: `rec` is the
recursive call on the shared assignment dict.  A normal return is
`some (final dict state, returned value)`; `none` is a propagated
exception.  Each iteration binds the value, checks consistency,
recurses when consistent, propagates a truthy result, and otherwise
pops the binding and tries the next value; an exhausted loop returns
`None` with the dict in its current state. -/
def tryValues (cw : Crossword) (rec : Assignment → Option (Assignment × Option Assignment))
    (var : Var) : List Word → Assignment → Option (Assignment × Option Assignment)
  | [], a => some (a, none)
  | value :: rest, a =>
      let a1 := setA a var value
      if consistent cw a1 then
        match rec a1 with
        | none => none
        | some (a2, result) =>
            if resultTruthy result then some (a2, result)
            else
              match popA a2 var with
              | none => none
              | some a3 => tryValues cw rec var rest a3
      else
        match popA a1 var with
        | none => none
        | some a3 => tryValues cw rec var rest a3

/-- `CrosswordCreator.backtrack`, in state-passing style over the
shared assignment dict: a complete assignment is returned at once
(`some (a, some a)`); otherwise a variable is selected, its domain
values ordered, and the values tried in order.  `none` models a raised
exception (from selection or ordering) and fuel exhaustion; the
recursion depth of the source is bounded by the number of variables, so
the fuel `solve` passes is never exhausted. -/
def backtrack (cw : Crossword) (d : Domains) : Nat → Assignment →
    Option (Assignment × Option Assignment)
  | 0, _ => none
  | fuel + 1, a =>
      if assignment_complete cw a then some (a, some a)
      else
        match select_unassigned_variable cw d a with
        | none => none
        | some var =>
            match order_domain_values cw d var a with
            | none => none
            | some values => tryValues cw (backtrack cw d fuel) var values a

/-- `CrosswordCreator.solve`, instrumented with whether the
backtracking search was invoked: the source enforces node consistency,
calls `ac3` — discarding its Boolean result — and then unconditionally
calls `backtrack` on an empty assignment.  The first component is the
call's outcome (`none` an exception, `some none` the "no solution"
result, `some (some a)` a returned assignment); the second component
records that `backtrack` was invoked. -/
def solveTrace (cw : Crossword) : Option (Option Assignment) × Bool :=
  let d1 := enforce_node_consistency (initialDomains cw)
  match ac3 cw d1 none with
  | none => (none, false)
  | some (d2, _ac3Result) =>
      (match backtrack cw d2 (cw.vars.length + 1) [] with
       | none => none
       | some (_, r) => some r,
       true)

/-- `CrosswordCreator.solve`: the value returned to the caller. -/
def solve (cw : Crossword) : Option (Option Assignment) :=
  (solveTrace cw).1

/-- The domain store left behind by `ac3(arcs=None)` (the mutated
`self.domains` after the call; unchanged if the call did not return). -/
def ac3result (cw : Crossword) (d : Domains) : Domains :=
  fun v =>
    match ac3 cw d none with
    | none => d v
    | some (d2, _) => d2 v

end CrosswordCreator

open CrosswordCreator

/-! ### Concrete instances used by witnesses and counterexamples -/

/-- A 3-letter across slot at the origin. -/
def exA : Var := ⟨0, 0, false, 3⟩

/-- A 3-letter down slot at the origin, overlapping `exA` at `(0, 0)`. -/
def exB : Var := ⟨0, 0, true, 3⟩

/-- A 3-letter slot with no overlaps. -/
def exC : Var := ⟨5, 5, false, 3⟩

/-- A 1-letter slot with no overlaps. -/
def exD : Var := ⟨1, 1, false, 1⟩

def wCat : Word := ['c', 'a', 't']

def wCog : Word := ['c', 'o', 'g']

def wDog : Word := ['d', 'o', 'g']

/-- Overlap table of the two-slot puzzles: `exA` and `exB` cross at
their first characters. -/
def exOverlaps : Var → Var → Option (Nat × Nat) := fun x y =>
  if x = exA ∧ y = exB then some (0, 0)
  else if x = exB ∧ y = exA then some (0, 0)
  else none

/-- Two crossing 3-slots with vocabulary `{cat, dog}`: arc consistency
empties a domain (no first letters agree). -/
def cwFail : Crossword where
  vars := [exA, exB]
  words := [wCat, wDog]
  overlaps := exOverlaps
  vars_nodup := by decide
  overlaps_symm := by decide
  overlaps_irrefl := by decide

/-- Two crossing 3-slots with vocabulary `{cat, cog, dog}`: solvable,
arc consistency prunes `dog` from both domains. -/
def cwSolvable : Crossword where
  vars := [exA, exB]
  words := [wCat, wCog, wDog]
  overlaps := exOverlaps
  vars_nodup := by decide
  overlaps_symm := by decide
  overlaps_irrefl := by decide

/-- A single 3-slot with vocabulary `{cat, dog}` and no overlaps. -/
def cwSingle : Crossword where
  vars := [exC]
  words := [wCat, wDog]
  overlaps := fun _ _ => none
  vars_nodup := by decide
  overlaps_symm := by decide
  overlaps_irrefl := by decide

/-- A single 1-letter slot with one-letter vocabulary: value ordering
hits `IndexError` on the sort key `word[1]`. -/
def cwLen1 : Crossword where
  vars := [exD]
  words := [['a'], ['b']]
  overlaps := fun _ _ => none
  vars_nodup := by decide
  overlaps_symm := by decide
  overlaps_irrefl := by decide

/-! ### Helper lemmas about the domain store and `revise` -/

theorem updateD_apply_self (d : Domains) (x : Var) (l : List Word) :
    updateD d x l x = l := by
  simp [updateD]

theorem updateD_apply_ne (d : Domains) (x : Var) (l : List Word) {v : Var}
    (h : v ≠ x) : updateD d x l v = d v := by
  simp [updateD, h]

theorem updateD_self (d : Domains) (x : Var) : updateD d x (d x) = d := by
  funext v
  by_cases h : v = x
  · subst h; simp [updateD]
  · simp [updateD, h]

theorem reviseRemoves_eq_false {dy : List Word} {ix iy : Nat} {w : Word} :
    reviseRemoves dy ix iy w = false ↔
      ∃ w2 ∈ dy, w2 ≠ w ∧ charAt w ix = charAt w2 iy := by
  simp [reviseRemoves, List.all_eq_false, List.mem_filter, not_not]

theorem revise_of_none {cw : Crossword} {d : Domains} {x y : Var}
    (h : cw.overlaps x y = none) : revise cw d x y = (d, false) := by
  simp [revise, h]

theorem revise_fst_apply_self {cw : Crossword} {d : Domains} {x y : Var}
    {ix iy : Nat} (h : cw.overlaps x y = some (ix, iy)) :
    (revise cw d x y).1 x = (d x).filter (fun w => !reviseRemoves (d y) ix iy w) := by
  simp [revise, h, updateD]

theorem revise_fst_apply_ne {cw : Crossword} {d : Domains} {x y v : Var}
    (h : v ≠ x) : (revise cw d x y).1 v = d v := by
  unfold revise
  match hov : cw.overlaps x y with
  | none => rfl
  | some (ix, iy) => simp [updateD, h]

theorem revise_subset (cw : Crossword) (d : Domains) (x y v : Var) :
    (revise cw d x y).1 v ⊆ d v := by
  by_cases h : v = x
  · subst h
    match hov : cw.overlaps v y with
    | none => rw [revise_of_none hov]; exact fun _ hw => hw
    | some (ix, iy) =>
        rw [revise_fst_apply_self hov]
        exact fun w hw => (List.mem_filter.mp hw).1
  · rw [revise_fst_apply_ne h]; exact fun _ hw => hw

theorem revise_snd_false_unchanged {cw : Crossword} {d : Domains} {x y : Var}
    (h : (revise cw d x y).2 = false) : (revise cw d x y).1 = d := by
  unfold revise at h ⊢
  match hov : cw.overlaps x y with
  | none => rfl
  | some (ix, iy) =>
      simp only [hov] at h ⊢
      rw [Bool.not_eq_false', List.isEmpty_iff, List.filter_eq_nil_iff] at h
      have : (d x).filter (fun w => !reviseRemoves (d y) ix iy w) = d x := by
        rw [List.filter_eq_self]
        intro w hw
        simp [h w hw]
      rw [this, updateD_self]

theorem revise_snd_false_iff {cw : Crossword} {d : Domains} {x y : Var}
    {ix iy : Nat} (h : cw.overlaps x y = some (ix, iy)) :
    (revise cw d x y).2 = false ↔
      ∀ w ∈ d x, reviseRemoves (d y) ix iy w = false := by
  simp [revise, h, List.isEmpty_iff, List.filter_eq_nil_iff]

theorem mem_revise_fst_self {cw : Crossword} {d : Domains} {x y : Var}
    {ix iy : Nat} (h : cw.overlaps x y = some (ix, iy)) {w : Word} :
    w ∈ (revise cw d x y).1 x ↔
      w ∈ d x ∧ ∃ w2 ∈ d y, w2 ≠ w ∧ charAt w ix = charAt w2 iy := by
  rw [revise_fst_apply_self h, List.mem_filter, Bool.not_eq_true',
    reviseRemoves_eq_false]

theorem revise_snd_true_iff {cw : Crossword} {d : Domains} {x y : Var}
    {ix iy : Nat} (h : cw.overlaps x y = some (ix, iy)) :
    (revise cw d x y).2 = true ↔ ∃ w ∈ d x, w ∉ (revise cw d x y).1 x := by
  constructor
  · intro htrue
    have hne : ¬∀ w ∈ d x, reviseRemoves (d y) ix iy w = false := by
      rw [← revise_snd_false_iff h]
      simp [htrue]
    push_neg at hne
    obtain ⟨w, hw, hrem⟩ := hne
    refine ⟨w, hw, ?_⟩
    rw [mem_revise_fst_self h]
    rintro ⟨-, hsup⟩
    rw [← reviseRemoves_eq_false] at hsup
    exact hrem hsup
  · rintro ⟨w, hw, hnot⟩
    by_contra hne
    rw [Bool.not_eq_true, revise_snd_false_iff h] at hne
    have := hne w hw
    rw [reviseRemoves_eq_false] at this
    exact hnot ((mem_revise_fst_self h).mpr ⟨hw, this⟩)

/-- A variable of the crossword never overlaps itself, so an overlap
implies the two variables differ. -/
theorem ne_of_overlap {cw : Crossword} {x y : Var} (hx : x ∈ cw.vars)
    {ix iy : Nat} (h : cw.overlaps x y = some (ix, iy)) : x ≠ y := by
  intro hxy
  subst hxy
  rw [cw.overlaps_irrefl x hx] at h
  exact Option.noConfusion h

/-! ### Claim C5: node consistency is exactly the length filter -/

/-- C5: after `enforce_node_consistency()`, each variable's domain is
exactly the set of words of its previous domain whose length equals the
variable's length: every word of the wrong length is removed and no
word of the right length is removed. -/
theorem c5_node_consistency_exact (d : Domains) (v : Var) (w : Word) :
    w ∈ enforce_node_consistency d v ↔ w ∈ d v ∧ w.length = v.length := by
  simp [enforce_node_consistency, List.mem_filter]

/-! ### Claim C3: the exact semantics of `revise` -/

/-- C3: for variables `x`, `y` of the crossword: with no overlap,
`revise(x, y)` changes nothing and returns `False`; with overlap
offsets `(ix, iy)` (in range for the stored words, so that Python's
indexing is defined), it removes from `x`'s domain exactly the words
`w` without a distinct support in `y`'s domain, leaves `y`'s domain
unchanged, and returns `True` iff at least one word was removed. -/
theorem c3_revise_spec (cw : Crossword) (d : Domains) (x y : Var)
    (hx : x ∈ cw.vars) (_hy : y ∈ cw.vars) :
    (cw.overlaps x y = none → revise cw d x y = (d, false)) ∧
    (∀ ix iy, cw.overlaps x y = some (ix, iy) →
      (∀ w ∈ d x, ix < w.length) → (∀ w2 ∈ d y, iy < w2.length) →
      (∀ w, w ∈ (revise cw d x y).1 x ↔
          w ∈ d x ∧ ∃ w2 ∈ d y, w2 ≠ w ∧ charAt w ix = charAt w2 iy) ∧
      (revise cw d x y).1 y = d y ∧
      ((revise cw d x y).2 = true ↔ ∃ w ∈ d x, w ∉ (revise cw d x y).1 x)) := by
  constructor
  · exact fun h => revise_of_none h
  · intro ix iy hov _ _
    have hne : y ≠ x := (ne_of_overlap hx hov).symm
    exact ⟨fun w => mem_revise_fst_self hov, revise_fst_apply_ne hne,
      revise_snd_true_iff hov⟩

/-- C3 witness: the theorem applied to the solvable two-slot instance,
with node-consistent domains: `dog` is pruned from `exA`'s domain (no
distinct word of `exB`'s domain starts with `d`), `cat` and `cog`
stay, `exB`'s domain is untouched, and the call reports a revision. -/
theorem c3_witness :
    (wDog ∈ initialDomains cwSolvable exA ∧
      ¬∃ w2 ∈ initialDomains cwSolvable exB, w2 ≠ wDog ∧
        charAt wDog 0 = charAt w2 0) ∧
    wDog ∉ (revise cwSolvable (initialDomains cwSolvable) exA exB).1 exA ∧
    wCat ∈ (revise cwSolvable (initialDomains cwSolvable) exA exB).1 exA ∧
    (revise cwSolvable (initialDomains cwSolvable) exA exB).1 exB =
      initialDomains cwSolvable exB ∧
    (revise cwSolvable (initialDomains cwSolvable) exA exB).2 = true := by
  have h := c3_revise_spec cwSolvable (initialDomains cwSolvable) exA exB
    (by decide) (by decide)
  have h2 := (h.2 0 0 (by decide) (by decide) (by decide))
  refine ⟨by decide, ?_, ?_, h2.2.1, ?_⟩
  · rw [h2.1 wDog]
    decide
  · rw [h2.1 wCat]
    decide
  · rw [h2.2.2]
    decide

/-! ### Claim C9: domains only shrink -/

theorem ac3loop_subset (cw : Crossword) :
    ∀ (fuel : Nat) (q : List (Var × Var)) (d d' : Domains) (b : Bool),
      ac3loop cw fuel q d = some (d', b) → ∀ v : Var, d' v ⊆ d v := by
  intro fuel
  induction fuel with
  | zero =>
      intro q d d' b h v
      cases q with
      | nil =>
          simp only [ac3loop, Option.some.injEq, Prod.mk.injEq] at h
          rw [← h.1]
          exact fun _ hw => hw
      | cons p rest => exact Option.noConfusion h
  | succ fuel ih =>
      intro q d d' b h v
      cases q with
      | nil =>
          simp only [ac3loop, Option.some.injEq, Prod.mk.injEq] at h
          rw [← h.1]
          exact fun _ hw => hw
      | cons p rest =>
          obtain ⟨x, y⟩ := p
          simp only [ac3loop] at h
          by_cases hch : (revise cw d x y).2 = true
          · rw [if_pos hch] at h
            by_cases hemp : ((revise cw d x y).1 x).isEmpty = true
            · rw [if_pos hemp] at h
              simp only [Option.some.injEq, Prod.mk.injEq] at h
              rw [← h.1]
              exact revise_subset cw d x y v
            · rw [if_neg hemp] at h
              exact fun w hw => revise_subset cw d x y v (ih _ _ _ _ h v hw)
          · rw [if_neg hch] at h
            exact fun w hw => revise_subset cw d x y v (ih _ _ _ _ h v hw)

theorem ac3_subset {cw : Crossword} {d : Domains}
    {arcs : Option (List (Var × Var))} {d' : Domains} {b : Bool}
    (h : ac3 cw d arcs = some (d', b)) : ∀ v : Var, d' v ⊆ d v := by
  match arcs with
  | some [] =>
      simp only [ac3, Option.some.injEq, Prod.mk.injEq] at h
      rw [← h.1]
      exact fun _ _ hw => hw
  | some (p :: l) => exact ac3loop_subset cw _ _ _ _ _ h
  | none => exact ac3loop_subset cw _ _ _ _ _ h

/-- C9: domains only shrink: a call to `enforce_node_consistency`, to
`revise` or to `ac3` (with any arc list) leaves every variable's domain
a subset of what it was before the call; no operation adds a word. -/
theorem c9_domains_only_shrink :
    (∀ (d : Domains) (v : Var), enforce_node_consistency d v ⊆ d v) ∧
    (∀ (cw : Crossword) (d : Domains) (x y v : Var),
      (revise cw d x y).1 v ⊆ d v) ∧
    (∀ (cw : Crossword) (d : Domains) (arcs : Option (List (Var × Var)))
       (d' : Domains) (b : Bool),
      ac3 cw d arcs = some (d', b) → ∀ v : Var, d' v ⊆ d v) := by
  refine ⟨?_, ?_, ?_⟩
  · intro d v w hw
    exact (List.mem_filter.mp hw).1
  · exact fun cw d x y v => revise_subset cw d x y v
  · exact fun cw d arcs d' b h => ac3_subset h

/-- C9 witness: the theorem applied to the failing two-slot instance:
after full propagation (which runs `revise` and `ac3`) the surviving
word `cat` of `exA`'s node-consistent domain is certified to come from
the initial vocabulary. -/
theorem c9_witness :
    wCat ∈ enforce_node_consistency (initialDomains cwFail) exA ∧
    wCat ∈ (revise cwFail (initialDomains cwFail) exA exB).1 exB ∧
    ac3 cwSolvable (initialDomains cwSolvable) (some []) =
      some (initialDomains cwSolvable, true) ∧
    wCat ∈ initialDomains cwSolvable exA := by
  refine ⟨by decide, by decide, ?_, ?_⟩
  · rfl
  · exact c9_domains_only_shrink.2.2 cwSolvable (initialDomains cwSolvable)
      (some []) (initialDomains cwSolvable) true rfl exA (by decide)

/-! ### Claim C7: value ordering raises on one-letter slots -/

/-- C7: `order_domain_values` is not total: its sort key indexes
character position 1 of each candidate word, so for a variable of
length 1 with a non-empty (node-consistent) domain it raises
`IndexError`; consequently `solve()` on the one-letter puzzle `cwLen1`
raises (returns no result at all) even though the search was reached. -/
theorem c7_order_domain_values_raises :
    (∀ (cw : Crossword) (d : Domains) (var : Var) (a : Assignment),
      var.length = 1 → d var ≠ [] → (∀ w ∈ d var, w.length = var.length) →
      order_domain_values cw d var a = none) ∧
    solve cwLen1 = none ∧ (solveTrace cwLen1).2 = true := by
  refine ⟨?_, by decide, by decide⟩
  intro cw d var a hlen hne hall
  simp only [order_domain_values]
  rw [if_pos]
  rw [List.any_eq_true]
  obtain ⟨w, hw⟩ := List.exists_mem_of_ne_nil (d var) hne
  refine ⟨w, List.mem_dedup.mpr hw, ?_⟩
  simp [hall w hw, hlen]

/-- C7 witness: the theorem applied to the one-letter puzzle with its
node-consistent domain store. -/
theorem c7_witness :
    order_domain_values cwLen1
      (enforce_node_consistency (initialDomains cwLen1)) exD [] = none ∧
    solve cwLen1 = none := by
  refine ⟨?_, c7_order_domain_values_raises.2.1⟩
  exact c7_order_domain_values_raises.1 cwLen1 _ exD []
    (by decide) (by decide) (by decide)

/-! ### Helper lemmas about sorting and selection -/

theorem mem_of_head? {α : Type} {l : List α} {v : α} (h : l.head? = some v) :
    v ∈ l := by
  cases l with
  | nil => exact Option.noConfusion h
  | cons a t =>
      rw [List.head?_cons, Option.some.injEq] at h
      rw [← h]
      exact List.mem_cons_self a t

theorem insertionSort_head_le {α : Type} (r : α → α → Prop) [DecidableRel r]
    (htot : ∀ a b, r a b ∨ r b a) (htr : ∀ a b c, r a b → r b c → r a c)
    {l : List α} {v : α} (h : (l.insertionSort r).head? = some v) :
    ∀ u ∈ l, r v u := by
  haveI : IsTotal α r := ⟨htot⟩
  haveI : IsTrans α r := ⟨htr⟩
  have hs := List.sorted_insertionSort r l
  intro u hu
  have hu2 : u ∈ l.insertionSort r := (List.perm_insertionSort r l).mem_iff.mpr hu
  cases hl : l.insertionSort r with
  | nil =>
      rw [hl] at h
      exact Option.noConfusion h
  | cons b t =>
      rw [hl] at h hs hu2
      rw [List.head?_cons, Option.some.injEq] at h
      subst h
      rcases List.mem_cons.mp hu2 with h1 | h1
      · subst h1
        rcases htot u u with h2 | h2 <;> exact h2
      · exact (List.sorted_cons.mp hs).1 u h1

theorem mem_insertionSort_iff {α : Type} (r : α → α → Prop) [DecidableRel r]
    {l : List α} {v : α} : v ∈ l.insertionSort r ↔ v ∈ l :=
  (List.perm_insertionSort r l).mem_iff

/-- Everything the search relies on about a successfully selected
variable: it is an unassigned crossword variable, of minimal domain
size among the unassigned, and of maximal degree among the unassigned
variables of minimal domain size. -/
theorem select_some_spec {cw : Crossword} {d : Domains} {a : Assignment} {var : Var}
    (h : select_unassigned_variable cw d a = some var) :
    var ∈ cw.vars ∧ var ∉ assignedVars a ∧
    (∀ u ∈ cw.vars, u ∉ assignedVars a → (d var).length ≤ (d u).length) ∧
    (∀ u ∈ cw.vars, u ∉ assignedVars a → (d u).length = (d var).length →
      (cw.neighbors u).length ≤ (cw.neighbors var).length) := by
  simp only [select_unassigned_variable] at h
  split at h
  · exact Option.noConfusion h
  · split at h
    · exact Option.noConfusion h
    · set unassigned := cw.vars.filter (fun v => decide (v ∉ assignedVars a)) with hun
      have hmemun : ∀ u : Var, u ∈ unassigned ↔ u ∈ cw.vars ∧ u ∉ assignedVars a := by
        intro u
        rw [hun, List.mem_filter, decide_eq_true_eq]
      split at h
      · -- exactly one unassigned variable: it is returned
        rename_i hone
        have hvmem := (hmemun var).mp (mem_of_head? h)
        obtain ⟨u0, hu0⟩ := List.length_eq_one.mp hone
        have hvar : var = u0 := by
          have := mem_of_head? h
          rw [hu0] at this
          exact List.mem_singleton.mp this
        refine ⟨hvmem.1, hvmem.2, ?_, ?_⟩
        · intro u hu hun2
          have : u ∈ unassigned := (hmemun u).mpr ⟨hu, hun2⟩
          rw [hu0] at this
          rw [List.mem_singleton.mp this, hvar]
        · intro u hu hun2 _
          have : u ∈ unassigned := (hmemun u).mpr ⟨hu, hun2⟩
          rw [hu0] at this
          rw [List.mem_singleton.mp this, hvar]
      · -- general case: sort by domain size, filter minima, sort by degree
        split at h
        · exact Option.noConfusion h
        · rename_i vmin hvmin
          have hsize : ∀ u ∈ unassigned, (d vmin).length ≤ (d u).length := by
            refine insertionSort_head_le _ ?_ ?_ hvmin
            · intro p q
              exact Nat.le_total _ _
            · intro p q s hpq hqs
              exact Nat.le_trans hpq hqs
          have hvarmem : var ∈ (unassigned.insertionSort
              (fun v1 v2 => (d v1).length ≤ (d v2).length)).filter
              (fun v => (d v).length == (d vmin).length) :=
            (mem_insertionSort_iff _).mp (mem_of_head? h)
          rw [List.mem_filter, mem_insertionSort_iff, beq_iff_eq] at hvarmem
          obtain ⟨hvarun, hvarsize⟩ := hvarmem
          have hdeg : ∀ u ∈ (unassigned.insertionSort
              (fun v1 v2 => (d v1).length ≤ (d v2).length)).filter
              (fun v => (d v).length == (d vmin).length),
              (cw.neighbors u).length ≤ (cw.neighbors var).length := by
            refine insertionSort_head_le _ ?_ ?_ h
            · intro p q
              exact (Nat.le_total _ _).symm
            · intro p q s hpq hqs
              exact Nat.le_trans hqs hpq
          have hvarVars := (hmemun var).mp hvarun
          refine ⟨hvarVars.1, hvarVars.2, ?_, ?_⟩
          · intro u hu hun2
            rw [hvarsize]
            exact hsize u ((hmemun u).mpr ⟨hu, hun2⟩)
          · intro u hu hun2 husize
            refine hdeg u ?_
            rw [List.mem_filter, mem_insertionSort_iff, beq_iff_eq]
            exact ⟨(hmemun u).mpr ⟨hu, hun2⟩, by rw [husize, hvarsize]⟩

/-! ### Helper lemmas about the assignment dict -/

theorem setA_not_mem {a : Assignment} {v : Var} {w : Word}
    (h : v ∉ assignedVars a) : setA a v w = a ++ [(v, w)] := by
  simp [setA, h]

theorem popA_append {a : Assignment} {v : Var} {w : Word}
    (h : v ∉ assignedVars a) : popA (a ++ [(v, w)]) v = some a := by
  have hmem : v ∈ assignedVars (a ++ [(v, w)]) := by
    simp [assignedVars]
  have hkeys : ∀ p ∈ a, p.1 ≠ v := by
    intro p hp hpv
    exact h (by rw [← hpv]; exact List.mem_map_of_mem Prod.fst hp)
  rw [popA, if_pos hmem, Option.some.injEq, List.filter_append]
  have h1 : a.filter (fun p => decide (p.1 ≠ v)) = a := by
    rw [List.filter_eq_self]
    intro p hp
    exact decide_eq_true (hkeys p hp)
  have h2 : List.filter (fun p => decide (p.1 ≠ v)) [(v, w)] = [] := by
    simp
  rw [h1, h2, List.append_nil]

theorem popA_nil (v : Var) : popA [] v = none := by
  simp [popA, assignedVars]

theorem lookupA_mem {a : Assignment} {v : Var} {w : Word}
    (h : lookupA a v = some w) : (v, w) ∈ a := by
  induction a with
  | nil => exact Option.noConfusion h
  | cons p rest ih =>
      obtain ⟨pv, pw⟩ := p
      rw [lookupA] at h
      by_cases hv : pv = v
      · rw [if_pos hv, Option.some.injEq] at h
        rw [hv, h] at *
        exact List.mem_cons_self _ _
      · rw [if_neg hv] at h
        exact List.mem_cons_of_mem _ (ih h)

theorem lookupA_isSome_of_mem {a : Assignment} {v : Var}
    (h : v ∈ assignedVars a) : ∃ w, lookupA a v = some w := by
  induction a with
  | nil => exact absurd h (by simp [assignedVars])
  | cons p rest ih =>
      obtain ⟨pv, pw⟩ := p
      by_cases hv : pv = v
      · exact ⟨pw, by rw [lookupA, if_pos hv]⟩
      · have : v ∈ assignedVars rest := by
          rcases List.mem_cons.mp h with h1 | h1
          · exact absurd h1.symm hv
          · exact h1
        obtain ⟨w, hw⟩ := ih this
        exact ⟨w, by rw [lookupA, if_neg hv]; exact hw⟩

/-! ### The backtracking search: frame and soundness -/

/-- Combined specification of one `tryValues` loop, assuming the
specification of the recursive call: from an assignment not binding
`var`, a normal `None` exit restores the entry assignment, and a normal
truthy exit returns the final dict, which is complete and consistent. -/
theorem tryValues_spec (cw : Crossword)
    (rec : Assignment → Option (Assignment × Option Assignment))
    (hrec : ∀ a a2 r, rec a = some (a2, r) →
      (r = none → a2 = a) ∧
      (∀ sol, r = some sol → a2 = sol ∧ assignment_complete cw sol = true ∧
        (consistent cw sol = true ∨ sol = a)))
    (var : Var) :
    ∀ (values : List Word) (a a2 : Assignment) (r : Option Assignment),
      var ∉ assignedVars a →
      tryValues cw rec var values a = some (a2, r) →
      (r = none → a2 = a) ∧
      (∀ sol, r = some sol → a2 = sol ∧ assignment_complete cw sol = true ∧
        consistent cw sol = true) := by
  intro values
  induction values with
  | nil =>
      intro a a2 r hvar h
      simp only [tryValues, Option.some.injEq, Prod.mk.injEq] at h
      refine ⟨fun _ => h.1.symm, fun sol hsol => ?_⟩
      rw [← h.2] at hsol
      exact Option.noConfusion hsol
  | cons value rest ihv =>
      intro a a2 r hvar h
      simp only [tryValues] at h
      rw [setA_not_mem hvar] at h
      split at h
      · -- the tentative binding is consistent: recurse
        rename_i hcons
        split at h
        · exact Option.noConfusion h
        · rename_i a2' result' hrc
          have hspec := hrec _ _ _ hrc
          split at h
          · -- truthy recursive result: propagated unchanged
            rename_i htr
            simp only [Option.some.injEq, Prod.mk.injEq] at h
            obtain ⟨ha2, hr⟩ := h
            subst ha2 hr
            constructor
            · intro hnone
              rw [hnone] at htr
              exact Bool.noConfusion htr
            · intro sol hsol
              have hs := hspec.2 sol hsol
              refine ⟨hs.1, hs.2.1, ?_⟩
              rcases hs.2.2 with hc | hc
              · exact hc
              · rw [hc]
                exact hcons
          · -- falsy recursive result: unbind and continue the loop
            rename_i htr
            split at h
            · exact Option.noConfusion h
            · rename_i a3 hpop
              match result' with
              | some sol' =>
                  have hs := hspec.2 sol' rfl
                  have hemp : sol' = [] := by
                    simp only [resultTruthy, Bool.not_eq_true,
                      Bool.not_eq_false'] at htr
                    exact List.isEmpty_iff.mp htr
                  rw [hs.1, hemp, popA_nil] at hpop
                  exact Option.noConfusion hpop
              | none =>
                  rw [hspec.1 rfl, popA_append hvar, Option.some.injEq] at hpop
                  rw [← hpop] at h
                  exact ihv a a2 r hvar h
      · -- inconsistent binding: unbind and continue the loop
        split at h
        · exact Option.noConfusion h
        · rename_i a3 hpop
          rw [popA_append hvar, Option.some.injEq] at hpop
          rw [← hpop] at h
          exact ihv a a2 r hvar h

/-- Combined specification of `backtrack`: a normal `None` return
leaves the assignment dict exactly as it was at entry, and a normal
truthy return is the final dict state, complete, and consistent unless
it is the untouched entry assignment itself. -/
theorem backtrack_spec (cw : Crossword) (d : Domains) :
    ∀ (fuel : Nat) (a a2 : Assignment) (r : Option Assignment),
      backtrack cw d fuel a = some (a2, r) →
      (r = none → a2 = a) ∧
      (∀ sol, r = some sol → a2 = sol ∧ assignment_complete cw sol = true ∧
        (consistent cw sol = true ∨ sol = a)) := by
  intro fuel
  induction fuel with
  | zero =>
      intro a a2 r h
      exact Option.noConfusion h
  | succ fuel ih =>
      intro a a2 r h
      simp only [backtrack] at h
      split at h
      · -- complete assignment returned as is
        rename_i hcomp
        simp only [Option.some.injEq, Prod.mk.injEq] at h
        obtain ⟨ha2, hr⟩ := h
        subst ha2
        constructor
        · intro hnone
          rfl
        · intro sol hsol
          rw [← hr, Option.some.injEq] at hsol
          exact ⟨by rw [hsol], by rw [← hsol]; exact hcomp, Or.inr hsol.symm⟩
      · split at h
        · exact Option.noConfusion h
        · rename_i var hsel
          split at h
          · exact Option.noConfusion h
          · rename_i values hord
            have hvar : var ∉ assignedVars a := (select_some_spec hsel).2.1
            have hs := tryValues_spec cw (backtrack cw d fuel) ih var
              values a a2 r hvar h
            exact ⟨hs.1, fun sol hsol =>
              ⟨(hs.2 sol hsol).1, (hs.2 sol hsol).2.1,
               Or.inl (hs.2 sol hsol).2.2⟩⟩

/-! ### Claim C8: failed branches restore the assignment -/

/-- C8: whenever `backtrack(assignment)` returns `None` (and no
exception escapes), the assignment dict is exactly equal to its state
at call entry: every tentative binding made during the call, including
by nested recursive calls, has been removed before returning. -/
theorem c8_backtrack_frame (cw : Crossword) (d : Domains) (fuel : Nat)
    (a a2 : Assignment) (h : backtrack cw d fuel a = some (a2, none)) :
    a2 = a :=
  (backtrack_spec cw d fuel a a2 none h).1 rfl

/-- C8 witness: on the unsolvable two-slot puzzle, a branch that starts
from the partial assignment `{exA: cat}` fails after trying and
unbinding both words for `exB`, and hands back exactly the entry
assignment. -/
theorem c8_witness :
    backtrack cwFail (enforce_node_consistency (initialDomains cwFail)) 2
      [(exA, wCat)] = some ([(exA, wCat)], none) ∧
    ([(exA, wCat)] : Assignment) = [(exA, wCat)] := by
  have hb : backtrack cwFail (enforce_node_consistency (initialDomains cwFail)) 2
      [(exA, wCat)] = some ([(exA, wCat)], none) := by decide
  exact ⟨hb, c8_backtrack_frame cwFail _ 2 _ _ hb⟩

/-! ### Claim C2: soundness of a returned solution -/

theorem complete_mem_keys {cw : Crossword} {a : Assignment}
    (h : assignment_complete cw a = true) :
    ∀ v ∈ cw.vars, v ∈ assignedVars a := by
  intro v hv
  rw [assignment_complete, Bool.and_eq_true] at h
  have := List.all_eq_true.mp h.1 v hv
  exact of_decide_eq_true this

/-- The three checks of `consistent`, in propositional form. -/
theorem consistent_parts {cw : Crossword} {a : Assignment}
    (h : consistent cw a = true) :
    (a.map Prod.snd).Nodup ∧
    (∀ p ∈ a, p.1.length = p.2.length) ∧
    (∀ p ∈ a, ∀ n ∈ cw.neighbors p.1, ∀ wn, lookupA a n = some wn →
      ∀ i j, cw.overlaps p.1 n = some (i, j) → charAt p.2 i = charAt wn j) := by
  rw [consistent, Bool.and_eq_true, Bool.and_eq_true] at h
  obtain ⟨⟨h1, h2⟩, h3⟩ := h
  refine ⟨of_decide_eq_true h1, ?_, ?_⟩
  · intro p hp
    exact eq_of_beq (List.all_eq_true.mp h2 p hp)
  · intro p hp n hn wn hwn i j hov
    have h4 := List.all_eq_true.mp (List.all_eq_true.mp h3 p hp) n hn
    rw [hwn] at h4
    have h5 : (match cw.overlaps p.1 n with
        | none => true
        | some (i, j) => charAt p.2 i == charAt wn j) = true := h4
    rw [hov] at h5
    have h6 : (charAt p.2 i == charAt wn j) = true := h5
    exact eq_of_beq h6

/-- C2: every non-`None` assignment returned by `solve()` binds every
variable of the crossword, assigns pairwise-distinct words to distinct
variables, and agrees at the overlap offsets of every overlapping pair
of variables. -/
theorem c2_solution_sound (cw : Crossword) (sol : Assignment)
    (h : solve cw = some (some sol)) :
    (∀ v ∈ cw.vars, ∃ w, lookupA sol v = some w) ∧
    (∀ v1 ∈ cw.vars, ∀ v2 ∈ cw.vars, ∀ w1 w2, v1 ≠ v2 →
      lookupA sol v1 = some w1 → lookupA sol v2 = some w2 → w1 ≠ w2) ∧
    (∀ x ∈ cw.vars, ∀ y ∈ cw.vars, ∀ ix iy wx wy,
      cw.overlaps x y = some (ix, iy) →
      lookupA sol x = some wx → lookupA sol y = some wy →
      charAt wx ix = charAt wy iy) := by
  rw [solve, solveTrace] at h
  split at h
  · exact Option.noConfusion h
  · rename_i d2 flag hac
    simp only at h
    split at h
    · exact Option.noConfusion h
    · rename_i a2 r hbt
      rw [Option.some.injEq] at h
      subst h
      have hspec := (backtrack_spec cw d2 (cw.vars.length + 1) [] a2 (some sol)
        hbt).2 sol rfl
      obtain ⟨-, hcomp, hcons⟩ := hspec
      have hlook : ∀ v ∈ cw.vars, ∃ w, lookupA sol v = some w := by
        intro v hv
        exact lookupA_isSome_of_mem (complete_mem_keys hcomp v hv)
      rcases hcons with hcons | hnil
      · obtain ⟨hnodup, -, hover⟩ := consistent_parts hcons
        refine ⟨hlook, ?_, ?_⟩
        · intro v1 hv1 v2 hv2 w1 w2 hne h1 h2 heq
          subst heq
          have hm1 : (v1, w1) ∈ sol := lookupA_mem h1
          have hm2 : (v2, w1) ∈ sol := lookupA_mem h2
          have := List.inj_on_of_nodup_map hnodup hm1 hm2 rfl
          rw [Prod.mk.injEq] at this
          exact hne this.1
        · intro x hx y hy ix iy wx wy hov h1 h2
          have hm1 : (x, wx) ∈ sol := lookupA_mem h1
          have hyn : y ∈ cw.neighbors x := by
            rw [Crossword.neighbors, List.mem_filter]
            exact ⟨hy, by rw [hov]; rfl⟩
          exact hover (x, wx) hm1 y hyn wy h2 ix iy hov
      · -- the returned assignment is the empty entry dict: no variables
        subst hnil
        have hnovars : ∀ v : Var, v ∈ cw.vars → False := by
          intro v hv
          have := complete_mem_keys hcomp v hv
          simp [assignedVars] at this
        exact ⟨hlook, fun v1 hv1 => absurd hv1 (by intro hc; exact hnovars v1 hc),
          fun x hx => absurd hx (by intro hc; exact hnovars x hc)⟩

/-- C2 witness: the theorem applied to the solvable two-slot puzzle,
whose computed solution is `{exA: cat, exB: cog}`: both variables are
bound, the words differ, and the crossing letters agree. -/
theorem c2_witness :
    solve cwSolvable = some (some [(exA, wCat), (exB, wCog)]) ∧
    (∃ w, lookupA [(exA, wCat), (exB, wCog)] exA = some w) ∧
    wCat ≠ wCog ∧
    charAt wCat 0 = charAt wCog 0 := by
  have hs : solve cwSolvable = some (some [(exA, wCat), (exB, wCog)]) := by decide
  have h := c2_solution_sound cwSolvable [(exA, wCat), (exB, wCog)] hs
  refine ⟨hs, h.1 exA (by decide), ?_, ?_⟩
  · exact h.2.1 exA (by decide) exB (by decide) wCat wCog (by decide)
      (by decide) (by decide)
  · exact h.2.2 exA (by decide) exB (by decide) 0 0 wCat wCog (by decide)
      (by decide) (by decide)

/-! ### Claim C4: soundness of AC-3 -/

/-- Arc consistency of `x` with respect to `y` under a domain store,
with the source's support notion: every remaining word of `x` has a
distinct supporting word in `y`'s domain agreeing at the overlap. -/
def arcOK (cw : Crossword) (d : Domains) (x y : Var) : Prop :=
  ∀ ix iy, cw.overlaps x y = some (ix, iy) →
    ∀ w ∈ d x, ∃ w2 ∈ d y, w2 ≠ w ∧ charAt w ix = charAt w2 iy

theorem reviseRemoves_eq_true {dy : List Word} {ix iy : Nat} {w : Word} :
    reviseRemoves dy ix iy w = true ↔
      ∀ w2 ∈ dy, w2 ≠ w → charAt w ix ≠ charAt w2 iy := by
  simp [reviseRemoves, List.all_eq_true, List.mem_filter]
  exact ⟨fun h w2 hm hne => (h w2 hm).resolve_left hne,
    fun h w2 hm => or_iff_not_imp_left.mpr (h w2 hm)⟩

/-- After `revise(x, y)` performs its removals, `x` is arc consistent
with `y`. -/
theorem arcOK_revise_self {cw : Crossword} {d : Domains} {x y : Var}
    (hxy : x ≠ y) : arcOK cw (revise cw d x y).1 x y := by
  intro ix iy hov w hw
  rw [mem_revise_fst_self hov] at hw
  obtain ⟨_, w2, hw2, hne, hchar⟩ := hw
  refine ⟨w2, ?_, hne, hchar⟩
  rw [revise_fst_apply_ne (Ne.symm hxy)]
  exact hw2

/-- The arc AC-3 deliberately skips: revising `x` against `y` cannot
destroy the arc consistency of `y` with respect to `x`, because a word
removed from `x`'s domain supported no distinct word of `y`'s domain. -/
theorem arcOK_revise_rev {cw : Crossword} {d : Domains} {x y : Var}
    (hx : x ∈ cw.vars) (hy : y ∈ cw.vars) (hxy : x ≠ y)
    (h : arcOK cw d y x) : arcOK cw (revise cw d x y).1 y x := by
  intro a b hov w hw
  rw [revise_fst_apply_ne (Ne.symm hxy)] at hw
  obtain ⟨w2, hw2, hne, hchar⟩ := h a b hov w hw
  have hsymm := cw.overlaps_symm x hx y hy
  match hovxy : cw.overlaps x y with
  | none =>
      rw [hovxy] at hsymm
      rw [hov] at hsymm
      exact Option.noConfusion hsymm
  | some (p, q) =>
      rw [hovxy, hov] at hsymm
      simp only [Option.map, Option.some.injEq, Prod.mk.injEq] at hsymm
      obtain ⟨haq, hbp⟩ := hsymm
      by_cases hw2m : w2 ∈ (revise cw d x y).1 x
      · exact ⟨w2, hw2m, hne, hchar⟩
      · exfalso
        rw [mem_revise_fst_self hovxy] at hw2m
        push_neg at hw2m
        have hneq := hw2m hw2 w hw (fun hc => hne hc.symm)
        rw [haq, hbp] at hchar
        exact hneq hchar.symm

/-- Revising `x` against `y` preserves the arc consistency of any arc
whose target is not `x`. -/
theorem arcOK_revise_other {cw : Crossword} {d : Domains} {x y u v : Var}
    (hvx : v ≠ x) (h : arcOK cw d u v) : arcOK cw (revise cw d x y).1 u v := by
  intro i j hov w hw
  have hw2 : w ∈ d u := revise_subset cw d x y u hw
  obtain ⟨w2, hm, hne, hchar⟩ := h i j hov w hw2
  refine ⟨w2, ?_, hne, hchar⟩
  rw [revise_fst_apply_ne hvx]
  exact hm

/-- A `revise` call that reports no change certifies the arc consistent. -/
theorem arcOK_of_revise_false {cw : Crossword} {d : Domains} {x y : Var}
    (h : (revise cw d x y).2 = false) : arcOK cw d x y := by
  intro ix iy hov w hw
  exact reviseRemoves_eq_false.mp ((revise_snd_false_iff hov).mp h w hw)

theorem mem_initialArcs {cw : Crossword} {p : Var × Var} :
    p ∈ initialArcs cw ↔
      p.1 ∈ cw.vars ∧ p.2 ∈ cw.vars ∧ (cw.overlaps p.1 p.2).isSome = true := by
  obtain ⟨x, y⟩ := p
  simp only [initialArcs, List.mem_filter, List.mem_flatMap, List.mem_map]
  constructor
  · rintro ⟨⟨u, hu, huv⟩, hov⟩
    obtain ⟨v, hv, hveq⟩ := huv
    rw [Prod.mk.injEq] at hveq
    obtain ⟨h1, h2⟩ := hveq
    subst h1 h2
    exact ⟨hu, hv, hov⟩
  · rintro ⟨hx, hy, hov⟩
    exact ⟨⟨x, hx, y, hy, rfl⟩, hov⟩

/-- The AC-3 worklist invariant: every overlapping ordered pair of
crossword variables is either still queued or already arc consistent.
When the loop drains the queue and reports success, every arc of the
problem is consistent. -/
theorem ac3loop_sound (cw : Crossword) :
    ∀ (fuel : Nat) (q : List (Var × Var)) (d d2 : Domains),
      (∀ p ∈ q, p.1 ∈ cw.vars ∧ p.2 ∈ cw.vars) →
      (∀ x ∈ cw.vars, ∀ y ∈ cw.vars, (x, y) ∈ q ∨ arcOK cw d x y) →
      ac3loop cw fuel q d = some (d2, true) →
      ∀ x ∈ cw.vars, ∀ y ∈ cw.vars, arcOK cw d2 x y := by
  intro fuel
  induction fuel with
  | zero =>
      intro q d d2 hq hinv h x hx y hy
      cases q with
      | nil =>
          simp only [ac3loop, Option.some.injEq, Prod.mk.injEq] at h
          rw [← h.1]
          rcases hinv x hx y hy with hmem | hok
          · exact absurd hmem (List.not_mem_nil _)
          · exact hok
      | cons p rest => exact Option.noConfusion h
  | succ fuel ih =>
      intro q d d2 hq hinv h x hx y hy
      cases q with
      | nil =>
          simp only [ac3loop, Option.some.injEq, Prod.mk.injEq] at h
          rw [← h.1]
          rcases hinv x hx y hy with hmem | hok
          · exact absurd hmem (List.not_mem_nil _)
          · exact hok
      | cons p rest =>
          obtain ⟨px, py⟩ := p
          have hpx : px ∈ cw.vars := (hq (px, py) (List.mem_cons_self _ _)).1
          have hpy : py ∈ cw.vars := (hq (px, py) (List.mem_cons_self _ _)).2
          simp only [ac3loop] at h
          split at h
          · -- the revision changed the popped arc's source domain
            rename_i hch
            split at h
            · -- emptied domain: the loop reports failure, not success
              simp only [Option.some.injEq, Prod.mk.injEq] at h
              exact absurd h.2 (by simp)
            · match hov : cw.overlaps px py with
              | none =>
                  rw [revise_of_none hov] at hch
                  exact Bool.noConfusion hch
              | some (ip, iq) =>
                  have hne : px ≠ py := ne_of_overlap hpx hov
                  refine ih _ _ _ ?_ ?_ h x hx y hy
                  · -- the new queue stays within the crossword's variables
                    intro p2 hp2
                    rcases List.mem_append.mp hp2 with hp2 | hp2
                    · rw [List.mem_reverse, List.mem_map] at hp2
                      obtain ⟨n, hn, hneq⟩ := hp2
                      rw [List.mem_filter] at hn
                      have hnv : n ∈ cw.vars :=
                        List.mem_of_mem_filter hn.1
                      rw [← hneq]
                      exact ⟨hnv, hpx⟩
                    · exact hq p2 (List.mem_cons_of_mem _ hp2)
                  · -- re-establish the worklist invariant
                    intro u hu v hv
                    rcases hinv u hu v hv with hmem | hok
                    · rcases List.mem_cons.mp hmem with hmem | hmem
                      · -- the popped arc itself: now consistent
                        rw [Prod.mk.injEq] at hmem
                        obtain ⟨hu2, hv2⟩ := hmem
                        subst hu2 hv2
                        exact Or.inr (arcOK_revise_self hne)
                      · exact Or.inl (List.mem_append.mpr (Or.inr hmem))
                    · by_cases hvx : v = px
                      · subst hvx
                        by_cases huy : u = py
                        · subst huy
                          exact Or.inr (arcOK_revise_rev hpx hpy hne hok)
                        · by_cases hux : u = v
                          · subst hux
                            refine Or.inr ?_
                            intro i j hov2 w hw
                            rw [cw.overlaps_irrefl u hu] at hov2
                            exact Option.noConfusion hov2
                          · match hovup : cw.overlaps u v with
                            | none =>
                                refine Or.inr ?_
                                intro i j hov2 w hw
                                rw [hovup] at hov2
                                exact Option.noConfusion hov2
                            | some (i0, j0) =>
                                -- u is a neighbor of the revised variable,
                                -- distinct from py: its arc is re-enqueued
                                refine Or.inl (List.mem_append.mpr (Or.inl ?_))
                                rw [List.mem_reverse, List.mem_map]
                                refine ⟨u, ?_, rfl⟩
                                rw [List.mem_filter]
                                refine ⟨?_, by simp [huy]⟩
                                rw [Crossword.neighbors, List.mem_filter]
                                refine ⟨hu, ?_⟩
                                have hsymm := cw.overlaps_symm v hv u hu
                                rw [hovup] at hsymm
                                match hovvu : cw.overlaps v u with
                                | none =>
                                    rw [hovvu] at hsymm
                                    exact Option.noConfusion hsymm
                                | some _ => rfl
                      · exact Or.inr (arcOK_revise_other hvx hok)
          · -- no revision: the popped arc was already consistent
            rename_i hch
            rw [Bool.not_eq_true] at hch
            have hunch := revise_snd_false_unchanged hch
            rw [hunch] at h
            refine ih _ _ _ (fun p2 hp2 => hq p2 (List.mem_cons_of_mem _ hp2))
              ?_ h x hx y hy
            intro u hu v hv
            rcases hinv u hu v hv with hmem | hok
            · rcases List.mem_cons.mp hmem with hmem | hmem
              · rw [Prod.mk.injEq] at hmem
                obtain ⟨hu2, hv2⟩ := hmem
                subst hu2 hv2
                exact Or.inr (arcOK_of_revise_false hch)
              · exact Or.inl hmem
            · exact Or.inr hok

/-- When `ac3` starting from all arcs of the problem reports success,
every overlapping ordered pair of crossword variables is arc
consistent in the resulting domain store. -/
theorem ac3_arc_consistent {cw : Crossword} {d d2 : Domains}
    (h : ac3 cw d none = some (d2, true)) :
    ∀ x ∈ cw.vars, ∀ y ∈ cw.vars, arcOK cw d2 x y := by
  rw [ac3] at h
  refine ac3loop_sound cw _ _ _ _ ?_ ?_ h
  · intro p hp
    rw [List.mem_reverse] at hp
    have hm := mem_initialArcs.mp hp
    exact ⟨hm.1, hm.2.1⟩
  · intro x hx y hy
    match hov : cw.overlaps x y with
    | none =>
        refine Or.inr ?_
        intro i j hov2 w _
        rw [hov] at hov2
        exact Option.noConfusion hov2
    | some (i, j) =>
        refine Or.inl ?_
        rw [List.mem_reverse]
        exact mem_initialArcs.mpr ⟨hx, hy, by rw [hov]; rfl⟩

/-- C4: if `ac3()` called with no explicit arc list returns `True`,
then for every variable `x`, every neighbor `y` of `x` (an overlapping
variable), and every word `w` remaining in `x`'s domain, there exists a
word in `y`'s domain compatible with `w` at the overlap offsets. -/
theorem c4_ac3_sound (cw : Crossword) (d d2 : Domains)
    (h : ac3 cw d none = some (d2, true)) :
    ∀ x ∈ cw.vars, ∀ y ∈ cw.vars, ∀ ix iy, cw.overlaps x y = some (ix, iy) →
      ∀ w ∈ d2 x, ∃ w2 ∈ d2 y, charAt w ix = charAt w2 iy := by
  intro x hx y hy ix iy hov w hw
  obtain ⟨w2, hm, _, hchar⟩ := ac3_arc_consistent h x hx y hy ix iy hov w hw
  exact ⟨w2, hm, hchar⟩

/-- The node-consistent domain store of `cwSolvable`. -/
def dSolvable : Domains := enforce_node_consistency (initialDomains cwSolvable)

/-- The domain store `ac3` leaves behind on `cwSolvable`: `dog` is
pruned from the domain of `exB` and then from the domain of `exA`. -/
def dPruned : Domains :=
  updateD (updateD dSolvable exB [wCat, wCog]) exA [wCat, wCog]

/-- C4 witness: on the solvable two-slot puzzle `ac3` succeeds leaving
`{cat, cog}` in both domains, and the theorem certifies a compatible
partner in `exB`'s domain for the surviving word `cat` of `exA`. -/
theorem c4_witness :
    ac3 cwSolvable dSolvable none = some (dPruned, true) ∧
    wCat ∈ dPruned exA ∧
    (∃ w2 ∈ dPruned exB, charAt wCat 0 = charAt w2 0) := by
  have hac : ac3 cwSolvable dSolvable none = some (dPruned, true) := by rfl
  refine ⟨hac, by decide, ?_⟩
  exact c4_ac3_sound cwSolvable dSolvable dPruned hac exA (by decide) exB
    (by decide) 0 0 (by decide) wCat (by decide)

/-! ### Claim C10: idempotence of node and arc consistency -/

/-- On a store where every queued arc would be revised without change,
the worklist loop drains the queue, changes nothing and succeeds. -/
theorem ac3loop_noop (cw : Crossword) :
    ∀ (q : List (Var × Var)) (fuel : Nat) (d : Domains),
      q.length ≤ fuel →
      (∀ p ∈ q, (revise cw d p.1 p.2).2 = false) →
      ac3loop cw fuel q d = some (d, true) := by
  intro q
  induction q with
  | nil =>
      intro fuel d _ _
      cases fuel with
      | zero => rfl
      | succ fuel => rfl
  | cons p rest ihq =>
      intro fuel d hfuel hall
      obtain ⟨px, py⟩ := p
      cases fuel with
      | zero => exact absurd hfuel (by simp)
      | succ fuel =>
          have hfalse := hall (px, py) (List.mem_cons_self _ _)
          simp only [ac3loop]
          rw [if_neg (by rw [hfalse]; exact Bool.false_ne_true)]
          rw [revise_snd_false_unchanged hfalse]
          refine ihq fuel d ?_ ?_
          · rw [List.length_cons] at hfuel
            omega
          · intro p2 hp2
            exact hall p2 (List.mem_cons_of_mem _ hp2)

/-- C10: node and arc consistency are idempotent: a second
`enforce_node_consistency` run changes no domain, and if `ac3()`
returned `True`, running `ac3()` again on the resulting domains changes
no domain and returns `True` again. -/
theorem c10_idempotent :
    (∀ d : Domains, enforce_node_consistency (enforce_node_consistency d) =
      enforce_node_consistency d) ∧
    (∀ (cw : Crossword) (d d2 : Domains),
      ac3 cw d none = some (d2, true) → ac3 cw d2 none = some (d2, true)) := by
  constructor
  · intro d
    funext v
    simp only [enforce_node_consistency]
    rw [List.filter_filter]
    congr 1
    funext w
    rw [Bool.and_self]
  · intro cw d d2 h
    have hOK := ac3_arc_consistent h
    rw [ac3]
    refine ac3loop_noop cw _ _ _ ?_ ?_
    · rw [List.length_reverse]
      exact Nat.le_add_right _ _
    · intro p hp
      rw [List.mem_reverse] at hp
      obtain ⟨hp1, hp2, hov⟩ := mem_initialArcs.mp hp
      match hov2 : cw.overlaps p.1 p.2 with
      | none =>
          rw [hov2] at hov
          exact Bool.noConfusion hov
      | some (i, j) =>
          rw [revise_snd_false_iff hov2]
          intro w hw
          rw [reviseRemoves_eq_false]
          exact hOK p.1 hp1 p.2 hp2 i j hov2 w hw

/-- C10 witness: the theorem applied to the single-slot puzzle, where
`ac3` trivially succeeds without touching the domains, and again to
the initial vocabulary store for the node-consistency half. -/
theorem c10_witness :
    enforce_node_consistency (enforce_node_consistency (initialDomains cwSingle)) =
      enforce_node_consistency (initialDomains cwSingle) ∧
    ac3 cwSingle (initialDomains cwSingle) none =
      some (initialDomains cwSingle, true) ∧
    ac3 cwSingle (initialDomains cwSingle) none =
      some (initialDomains cwSingle, true) := by
  have hac : ac3 cwSingle (initialDomains cwSingle) none =
      some (initialDomains cwSingle, true) := by rfl
  exact ⟨c10_idempotent.1 (initialDomains cwSingle), hac,
    c10_idempotent.2 cwSingle (initialDomains cwSingle)
      (initialDomains cwSingle) hac⟩

/-! ### Claim C1: solve after a failed propagation -/

/-- When the worklist loop reports failure, some crossword variable's
domain has been emptied. -/
theorem ac3loop_false_empty (cw : Crossword) :
    ∀ (fuel : Nat) (q : List (Var × Var)) (d d2 : Domains),
      (∀ p ∈ q, p.1 ∈ cw.vars) →
      ac3loop cw fuel q d = some (d2, false) →
      ∃ v ∈ cw.vars, d2 v = [] := by
  intro fuel
  induction fuel with
  | zero =>
      intro q d d2 hq h
      cases q with
      | nil =>
          simp only [ac3loop, Option.some.injEq, Prod.mk.injEq] at h
          exact absurd h.2 (by simp)
      | cons p rest => exact Option.noConfusion h
  | succ fuel ih =>
      intro q d d2 hq h
      cases q with
      | nil =>
          simp only [ac3loop, Option.some.injEq, Prod.mk.injEq] at h
          exact absurd h.2 (by simp)
      | cons p rest =>
          obtain ⟨px, py⟩ := p
          have hpx : px ∈ cw.vars := hq (px, py) (List.mem_cons_self _ _)
          simp only [ac3loop] at h
          split at h
          · split at h
            · rename_i hemp
              simp only [Option.some.injEq, Prod.mk.injEq] at h
              refine ⟨px, hpx, ?_⟩
              rw [← h.1]
              exact List.isEmpty_iff.mp hemp
            · refine ih _ _ _ ?_ h
              intro p2 hp2
              rcases List.mem_append.mp hp2 with hp2 | hp2
              · rw [List.mem_reverse, List.mem_map] at hp2
                obtain ⟨n, hn, hneq⟩ := hp2
                rw [← hneq]
                exact List.mem_of_mem_filter (List.mem_of_mem_filter hn)
              · exact hq p2 (List.mem_cons_of_mem _ hp2)
          · exact ih _ _ _ (fun p2 hp2 => hq p2 (List.mem_cons_of_mem _ hp2)) h

/-- When `ac3` starting from all arcs reports failure, some crossword
variable's domain is empty afterwards. -/
theorem ac3_false_empty {cw : Crossword} {d d2 : Domains}
    (h : ac3 cw d none = some (d2, false)) : ∃ v ∈ cw.vars, d2 v = [] := by
  rw [ac3] at h
  refine ac3loop_false_empty cw _ _ _ _ ?_ h
  intro p hp
  rw [List.mem_reverse] at hp
  exact (mem_initialArcs.mp hp).1

theorem head?_isSome_of_ne_nil {α : Type} {l : List α} (h : l ≠ []) :
    ∃ v, l.head? = some v := by
  cases l with
  | nil => exact absurd rfl h
  | cons a t => exact ⟨a, rfl⟩

/-- With fewer bindings than variables and some unassigned variable,
`select_unassigned_variable` returns normally. -/
theorem select_isSome (cw : Crossword) (d : Domains) (a : Assignment)
    (hlen : a.length < cw.vars.length)
    (hne : ∃ v ∈ cw.vars, v ∉ assignedVars a) :
    ∃ var, select_unassigned_variable cw d a = some var := by
  obtain ⟨v0, hv0, hv0n⟩ := hne
  simp only [select_unassigned_variable]
  have hv0un : v0 ∈ cw.vars.filter (fun v => decide (v ∉ assignedVars a)) := by
    rw [List.mem_filter]
    exact ⟨hv0, decide_eq_true hv0n⟩
  rw [if_neg (by omega)]
  rw [if_neg (by
    intro hc
    rw [List.isEmpty_iff] at hc
    rw [hc] at hv0un
    exact List.not_mem_nil _ hv0un)]
  by_cases hone :
      (cw.vars.filter (fun v => decide (v ∉ assignedVars a))).length = 1
  · rw [if_pos hone]
    exact head?_isSome_of_ne_nil (List.ne_nil_of_mem hv0un)
  · rw [if_neg hone]
    have hs1ne : (cw.vars.filter (fun v => decide (v ∉ assignedVars a))).insertionSort
        (fun v1 v2 => (d v1).length ≤ (d v2).length) ≠ [] :=
      List.ne_nil_of_mem ((mem_insertionSort_iff _).mpr hv0un)
    obtain ⟨vmin, hvmin⟩ := head?_isSome_of_ne_nil hs1ne
    rw [hvmin]
    show ∃ var,
      ((((cw.vars.filter (fun v => decide (v ∉ assignedVars a))).insertionSort
          (fun v1 v2 => (d v1).length ≤ (d v2).length)).filter
            (fun v => (d v).length == (d vmin).length)).insertionSort
        (fun v1 v2 => (cw.neighbors v2).length ≤ (cw.neighbors v1).length)).head? =
      some var
    have hvm2 : vmin ∈ ((cw.vars.filter (fun v => decide (v ∉ assignedVars a))).insertionSort
          (fun v1 v2 => (d v1).length ≤ (d v2).length)).filter
            (fun v => (d v).length == (d vmin).length) := by
      rw [List.mem_filter]
      exact ⟨mem_of_head? hvmin, by simp⟩
    exact head?_isSome_of_ne_nil
      (List.ne_nil_of_mem ((mem_insertionSort_iff _).mpr hvm2))

/-- C1, amended: when arc-consistency propagation empties a domain,
`ac3` does report failure, but `solve()` ignores that Boolean and
always invokes the backtracking search; the search then immediately
fails (the MRV heuristic selects the emptied domain first), so
`solve()` still returns "no solution" — with the search invoked. -/
theorem c1_solve_after_failed_ac3 (cw : Crossword)
    (h : (ac3 cw (enforce_node_consistency (initialDomains cw)) none).map
      Prod.snd = some false) :
    solveTrace cw = (some none, true) := by
  match hac : ac3 cw (enforce_node_consistency (initialDomains cw)) none with
  | none =>
      rw [hac] at h
      exact Option.noConfusion h
  | some (d2, flag) =>
      rw [hac] at h
      have hflag : flag = false := by
        have h2 : some flag = some false := h
        exact Option.some.inj h2
      subst hflag
      obtain ⟨v0, hv0, hd0⟩ := ac3_false_empty hac
      have hvlen : 0 < cw.vars.length :=
        List.length_pos.mpr (List.ne_nil_of_mem hv0)
      obtain ⟨vsel, hsel⟩ := select_isSome cw d2 [] (by simpa using hvlen)
        ⟨v0, hv0, by simp [assignedVars]⟩
      have hspec := select_some_spec hsel
      have hdsel : d2 vsel = [] := by
        have hle := hspec.2.2.1 v0 hv0 (by simp [assignedVars])
        rw [hd0] at hle
        exact List.length_eq_zero.mp (Nat.le_zero.mp (by simpa using hle))
      have hord : order_domain_values cw d2 vsel [] = some [] := by
        simp only [order_domain_values, hdsel]
        rfl
      have hncomp : ¬assignment_complete cw [] = true := by
        rw [assignment_complete]
        simp only [Bool.and_eq_true, List.all_eq_true]
        rintro ⟨hall, -⟩
        have hmem := hall v0 hv0
        rw [decide_eq_true_eq] at hmem
        simp [assignedVars] at hmem
      have hbt : backtrack cw d2 (cw.vars.length + 1) [] = some ([], none) := by
        simp only [backtrack]
        rw [if_neg hncomp, hsel]
        show (match order_domain_values cw d2 vsel [] with
              | none => none
              | some values =>
                  tryValues cw (backtrack cw d2 cw.vars.length) vsel values []) =
            some ([], none)
        rw [hord]
        show tryValues cw (backtrack cw d2 cw.vars.length) vsel [] [] =
          some ([], none)
        rfl
      simp only [solveTrace]
      rw [hac]
      show (match backtrack cw d2 (cw.vars.length + 1) [] with
            | none => none
            | some (_, r) => some r, true) = (some none, true)
      rw [hbt]

/-- C1 counterexample: on the two-slot puzzle with vocabulary
`{cat, dog}`, propagation empties a domain and `ac3` returns `False`,
yet `solve()` does invoke the backtracking search (it returns "no
solution" through the search, not by short-circuiting on the `ac3`
result, which line 94 of the source discards). -/
theorem c1_counterexample :
    (ac3 cwFail (enforce_node_consistency (initialDomains cwFail)) none).map
      Prod.snd = some false ∧
    (solveTrace cwFail).2 = true ∧
    (solveTrace cwFail).1 = some none := by
  refine ⟨by decide, by decide, by decide⟩

/-- C1 witness: the amended theorem applied to the failing two-slot
puzzle. -/
theorem c1_witness : solveTrace cwFail = (some none, true) :=
  c1_solve_after_failed_ac3 cwFail (by decide)

/-! ### Claim C6: variable selection -/

/-- C6: for an assignment whose keys are a subset of the crossword's
variables (as any dict has, with no duplicate keys): if some variable
is unassigned, `select_unassigned_variable` returns an unassigned
variable of minimal domain size, of maximal degree among the
minimal-domain unassigned variables; if every variable is assigned, it
raises an error (`none`) instead of returning. -/
theorem c6_select_spec (cw : Crossword) (d : Domains) (a : Assignment)
    (hnodup : (assignedVars a).Nodup)
    (hsub : ∀ v ∈ assignedVars a, v ∈ cw.vars) :
    ((∃ v ∈ cw.vars, v ∉ assignedVars a) →
      ∃ var, select_unassigned_variable cw d a = some var ∧
        var ∈ cw.vars ∧ var ∉ assignedVars a ∧
        (∀ u ∈ cw.vars, u ∉ assignedVars a → (d var).length ≤ (d u).length) ∧
        (∀ u ∈ cw.vars, u ∉ assignedVars a → (d u).length = (d var).length →
          (cw.neighbors u).length ≤ (cw.neighbors var).length)) ∧
    ((∀ v ∈ cw.vars, v ∈ assignedVars a) →
      select_unassigned_variable cw d a = none) := by
  have hkeys : (assignedVars a).length = a.length := by
    rw [assignedVars, List.length_map]
  constructor
  · intro hproper
    obtain ⟨v0, hv0, hv0n⟩ := hproper
    have hlen : a.length < cw.vars.length := by
      have hcons : (v0 :: assignedVars a).Nodup := by
        rw [List.nodup_cons]
        exact ⟨hv0n, hnodup⟩
      have hsub2 : (v0 :: assignedVars a) ⊆ cw.vars := by
        intro u hu
        rcases List.mem_cons.mp hu with hu | hu
        · rw [hu]; exact hv0
        · exact hsub u hu
      have := (List.subperm_of_subset hcons hsub2).length_le
      rw [List.length_cons, hkeys] at this
      omega
    obtain ⟨var, hvar⟩ := select_isSome cw d a hlen ⟨v0, hv0, hv0n⟩
    have hs := select_some_spec hvar
    exact ⟨var, hvar, hs.1, hs.2.1, hs.2.2.1, hs.2.2.2⟩
  · intro hall
    have hge : a.length ≥ cw.vars.length := by
      have := (List.subperm_of_subset cw.vars_nodup hall).length_le
      rw [hkeys] at this
      exact this
    simp only [select_unassigned_variable]
    rw [if_pos hge]

/-- C6 witness: the theorem applied to the solvable two-slot puzzle:
with the empty assignment it returns `exA` — unassigned, of minimal
domain size, of maximal degree among the tied variables — and with
both variables assigned it raises. -/
theorem c6_witness :
    select_unassigned_variable cwSolvable dSolvable [] = some exA ∧
    exA ∉ assignedVars ([] : Assignment) ∧
    (dSolvable exA).length ≤ (dSolvable exB).length ∧
    (cwSolvable.neighbors exB).length ≤ (cwSolvable.neighbors exA).length ∧
    select_unassigned_variable cwSolvable dSolvable
      [(exA, wCat), (exB, wCog)] = none := by
  have h1 := c6_select_spec cwSolvable dSolvable []
    (by simp [assignedVars]) (by simp [assignedVars])
  have h2 := c6_select_spec cwSolvable dSolvable [(exA, wCat), (exB, wCog)]
    (by decide) (by decide)
  obtain ⟨var, hvar, -, hunass, hmin, hdeg⟩ := h1.1 ⟨exA, by decide, by decide⟩
  have hsel : select_unassigned_variable cwSolvable dSolvable [] = some exA := by
    decide
  rw [hsel, Option.some.injEq] at hvar
  subst hvar
  refine ⟨hsel, hunass, hmin exB (by decide) (by decide), ?_, ?_⟩
  · exact hdeg exB (by decide) (by decide) (by decide)
  · exact h2.2 (by decide)
